import Mathlib

/-
  Shallow embedding of the orientation-to-control pipeline of the
  KenshiHH/headtracker Arduino sketch (src/tracker.ino), over real numbers.
  Float arithmetic is modelled by exact real arithmetic; the C library
  functions sqrtf, atan2f, asinf, fabsf and copysignf are modelled by
  Real.sqrt, an explicit atan2 over Real.arctan, Real.arcsin, abs and an
  explicit copysign.  Division by zero follows the Lean convention x / 0 = 0
  (the C code would produce NaN there; the modelled pipeline has no failure
  path either way, mirroring the absence of a guard in the source).
-/

namespace HeadTracker

open Real

/-- A raw orientation sample: four components (real, i, j, k) of the
rotation vector, as read in loop from the sensor event. -/
structure Quaternion where
  w : ℝ
  x : ℝ
  y : ℝ
  z : ℝ

/-- Decomposed orientation, in degrees, as computed in loop. -/
structure EulerAngles where
  yaw : ℝ
  pitch : ℝ
  roll : ℝ

/-- The calibration offset triple (yaw_offset, pitch_offset, roll_offset),
global mutable state in the sketch. -/
structure CalibrationOffset where
  yaw : ℝ
  pitch : ℝ
  roll : ℝ

/-- One joystick output sample (gamepad_report.x, .y, .z before the
integer store), produced once per processed quaternion. -/
structure AxisSample where
  x : ℝ
  y : ℝ
  z : ℝ

/-- norm = sqrtf(qw*qw + qx*qx + qy*qy + qz*qz) in loop. -/
noncomputable def quatNorm (q : Quaternion) : ℝ :=
  Real.sqrt (q.w * q.w + q.x * q.x + q.y * q.y + q.z * q.z)

/-- The quaternion-normalization step of loop: divide all four components
by the computed norm.  The source has no guard for a zero norm. -/
noncomputable def quatNormalize (q : Quaternion) : Quaternion :=
  let n := quatNorm q
  ⟨q.w / n, q.x / n, q.y / n, q.z / n⟩

/-- C copysignf over reals: the magnitude of the first argument with the
sign of the second (reals have no negative zero, so the sign test is s < 0). -/
noncomputable def copysign (mag s : ℝ) : ℝ :=
  if s < 0 then -|mag| else |mag|

/-- C atan2f over reals: the angle of the point (x, y), in (-pi, pi],
computed piecewise from Real.arctan as in the C99 specification.
atan2 0 0 = 0, matching atan2f(+0, +0). -/
noncomputable def atan2 (y x : ℝ) : ℝ :=
  if 0 < x then Real.arctan (y / x)
  else if x < 0 then
    (if 0 ≤ y then Real.arctan (y / x) + Real.pi else Real.arctan (y / x) - Real.pi)
  else
    (if 0 < y then Real.pi / 2 else if y < 0 then -(Real.pi / 2) else 0)

/-- Roll in radians: atan2f(sinr_cosp, cosr_cosp) with
sinr_cosp = 2(qw qx + qy qz) and cosr_cosp = 1 - 2(qx qx + qy qy). -/
noncomputable def eulerRollRad (q : Quaternion) : ℝ :=
  let sinr_cosp := 2 * (q.w * q.x + q.y * q.z)
  let cosr_cosp := 1 - 2 * (q.x * q.x + q.y * q.y)
  atan2 sinr_cosp cosr_cosp

/-- Pitch in radians: sinp = 2(qw qy - qz qx); if fabsf(sinp) >= 1 then
copysignf(PI/2, sinp) else asinf(sinp). -/
noncomputable def eulerPitchRad (q : Quaternion) : ℝ :=
  let sinp := 2 * (q.w * q.y - q.z * q.x)
  if 1 ≤ |sinp| then copysign (Real.pi / 2) sinp else Real.arcsin sinp

/-- Yaw in radians: atan2f(siny_cosp, cosy_cosp) with
siny_cosp = 2(qw qz + qx qy) and cosy_cosp = 1 - 2(qy qy + qz qz). -/
noncomputable def eulerYawRad (q : Quaternion) : ℝ :=
  let siny_cosp := 2 * (q.w * q.z + q.x * q.y)
  let cosy_cosp := 1 - 2 * (q.y * q.y + q.z * q.z)
  atan2 siny_cosp cosy_cosp

/-- The radians-to-degrees conversion roll *= 180.0f / PI of the sketch. -/
noncomputable def radToDeg (r : ℝ) : ℝ :=
  r * (180 / Real.pi)

/-- The full Euler decomposition of loop: ZYX closed form, then conversion
of all three angles to degrees. -/
noncomputable def eulerDecompose (q : Quaternion) : EulerAngles :=
  ⟨radToDeg (eulerYawRad q), radToDeg (eulerPitchRad q), radToDeg (eulerRollRad q)⟩

/-- The loop while (a > 180.0f) a -= 360.0f; terminates because each pass
strictly decreases the number of full 360-steps above 180. -/
noncomputable def wrapDown (a : ℝ) : ℝ :=
  if h : 180 < a then wrapDown (a - 360) else a
termination_by (Int.ceil ((a - 180) / 360)).toNat
decreasing_by
  have h1 : (a - 360 - 180) / 360 = (a - 180) / 360 - 1 := by ring
  rw [h1, Int.ceil_sub_one]
  have h2 : (0 : ℝ) < (a - 180) / 360 := div_pos (by linarith) (by norm_num)
  have h3 : 0 < Int.ceil ((a - 180) / 360) := Int.ceil_pos.mpr h2
  omega

/-- The loop while (a < -180.0f) a += 360.0f;. -/
noncomputable def wrapUp (a : ℝ) : ℝ :=
  if h : a < -180 then wrapUp (a + 360) else a
termination_by (Int.ceil ((-180 - a) / 360)).toNat
decreasing_by
  have h1 : (-180 - (a + 360)) / 360 = (-180 - a) / 360 - 1 := by ring
  rw [h1, Int.ceil_sub_one]
  have h2 : (0 : ℝ) < (-180 - a) / 360 := div_pos (by linarith) (by norm_num)
  have h3 : 0 < Int.ceil ((-180 - a) / 360) := Int.ceil_pos.mpr h2
  omega

/-- Step-indexed version of the subtract-360 loop: fuel n means the loop
is allowed at most n further passes; none means the bound was exhausted
with the guard still true. -/
noncomputable def wrapDownFuel : ℕ → ℝ → Option ℝ
  | 0, a => if 180 < a then none else some a
  | n + 1, a => if 180 < a then wrapDownFuel n (a - 360) else some a

/-- Step-indexed version of the add-360 loop. -/
noncomputable def wrapUpFuel : ℕ → ℝ → Option ℝ
  | 0, a => if a < -180 then none else some a
  | n + 1, a => if a < -180 then wrapUpFuel n (a + 360) else some a

/-- Both wrap loops of the sketch, in source order: first the subtract-360
loop runs to completion, then the add-360 loop. -/
noncomputable def wrapAngle (a : ℝ) : ℝ :=
  wrapUp (wrapDown a)

/-- The per-sample angle-normalization step of loop: subtract the
calibration offset, then wrap with the two while loops. -/
noncomputable def angleNormalize (raw offset : ℝ) : ℝ :=
  wrapAngle (raw - offset)

/-- mapFloat of the sketch: pure linear interpolation from
[in_min, in_max] to [out_min, out_max]. -/
noncomputable def mapFloat (x in_min in_max out_min out_max : ℝ) : ℝ :=
  (x - in_min) * (out_max - out_min) / (in_max - in_min) + out_min

/-- The per-sample pipeline body of loop for one rotation-vector sample:
normalize, decompose, subtract offsets, wrap, map to [-127, 127].
The source emits the resulting axis sample unconditionally. -/
noncomputable def processSample (q : Quaternion) (off : CalibrationOffset) : AxisSample :=
  let qn := quatNormalize q
  let e := eulerDecompose qn
  let yaw := angleNormalize e.yaw off.yaw
  let pitch := angleNormalize e.pitch off.pitch
  let roll := angleNormalize e.roll off.roll
  ⟨mapFloat yaw (-180) 180 (-127) 127,
   mapFloat pitch (-180) 180 (-127) 127,
   mapFloat roll (-180) 180 (-127) 127⟩

/-- int samples = 10; in resetView. -/
def samples : ℕ := 10

/-- One iteration of the resetView averaging loop: a failed fetch (none)
adds nothing; a successful fetch is normalized, decomposed and its
degree-valued angles are added to the running sums. -/
noncomputable def resetViewStep (acc : ℝ × ℝ × ℝ) (fetch : Option Quaternion) : ℝ × ℝ × ℝ :=
  match fetch with
  | none => acc
  | some q =>
    let e := eulerDecompose (quatNormalize q)
    (acc.1 + e.yaw, acc.2.1 + e.pitch, acc.2.2 + e.roll)

/-- resetView of the sketch: exactly samples = 10 fetch attempts, sums
initialized to zero, and the final offsets are always sums / samples,
whatever the number of successful fetches was. -/
noncomputable def resetView (fetches : List (Option Quaternion)) : CalibrationOffset :=
  let sums := (fetches.take samples).foldl resetViewStep (0, 0, 0)
  ⟨sums.1 / (samples : ℝ), sums.2.1 / (samples : ℝ), sums.2.2 / (samples : ℝ)⟩

/-- The state transition resetView performs on the calibration offset
globals: the previous offset is overwritten, never read. -/
noncomputable def resetViewUpdate (_prev : CalibrationOffset)
    (fetches : List (Option Quaternion)) : CalibrationOffset :=
  resetView fetches

/-- Written from the claim wording, for comparison with resetView: only
successfully retrieved samples contribute to the average and to its
divisor. -/
noncomputable def resetViewClaimed (fetches : List (Option Quaternion)) : CalibrationOffset :=
  let good := (fetches.take samples).filterMap id
  let sums := (good.map some).foldl resetViewStep (0, 0, 0)
  ⟨sums.1 / (good.length : ℝ), sums.2.1 / (good.length : ℝ), sums.2.2 / (good.length : ℝ)⟩

/- Helper lemmas -/

lemma arctan_pos_of_pos {t : ℝ} (ht : 0 < t) : 0 < Real.arctan t := by
  have h := Real.arctan_strictMono ht
  rwa [Real.arctan_zero] at h

lemma arctan_nonpos_of_nonpos {t : ℝ} (ht : t ≤ 0) : Real.arctan t ≤ 0 := by
  have h := Real.arctan_strictMono.monotone ht
  rwa [Real.arctan_zero] at h

/-- The modelled atan2 always lands in (-pi, pi]. -/
lemma atan2_mem_Ioc (y x : ℝ) : -Real.pi < atan2 y x ∧ atan2 y x ≤ Real.pi := by
  have hpi := Real.pi_pos
  have ha1 := Real.arctan_lt_pi_div_two (y / x)
  have ha2 := Real.neg_pi_div_two_lt_arctan (y / x)
  unfold atan2
  split_ifs with hx1 hx2 hy1 hy2 hy3
  · constructor <;> linarith
  · have hq : y / x ≤ 0 := div_nonpos_iff.mpr (Or.inl ⟨hy1, hx2.le⟩)
    have h3 := arctan_nonpos_of_nonpos hq
    constructor <;> linarith
  · have hyneg : y < 0 := not_le.mp hy1
    have hq : 0 < y / x := div_pos_iff.mpr (Or.inr ⟨hyneg, hx2⟩)
    have h3 := arctan_pos_of_pos hq
    constructor <;> linarith
  · constructor <;> linarith
  · constructor <;> linarith
  · constructor <;> linarith

lemma radToDeg_mono {a b : ℝ} (h : a ≤ b) : radToDeg a ≤ radToDeg b := by
  unfold radToDeg
  have hp : (0 : ℝ) < 180 / Real.pi := by positivity
  exact mul_le_mul_of_nonneg_right h hp.le

lemma radToDeg_lt_of_lt {a b : ℝ} (h : a < b) : radToDeg a < radToDeg b := by
  unfold radToDeg
  have hp : (0 : ℝ) < 180 / Real.pi := by positivity
  exact mul_lt_mul_of_pos_right h hp

lemma radToDeg_pi : radToDeg Real.pi = 180 := by
  unfold radToDeg
  field_simp

lemma radToDeg_pi_div_two : radToDeg (Real.pi / 2) = 90 := by
  unfold radToDeg
  field_simp
  ring

lemma radToDeg_neg (a : ℝ) : radToDeg (-a) = -radToDeg a := by
  unfold radToDeg
  ring

lemma radToDeg_zero : radToDeg 0 = 0 := by
  unfold radToDeg
  ring

/-- The pitch branch always lands in [-pi/2, pi/2]. -/
lemma eulerPitchRad_mem (q : Quaternion) :
    -(Real.pi / 2) ≤ eulerPitchRad q ∧ eulerPitchRad q ≤ Real.pi / 2 := by
  have hpi := Real.pi_pos
  simp only [eulerPitchRad, copysign]
  split_ifs with h1 h2
  · rw [abs_of_pos (by linarith : (0 : ℝ) < Real.pi / 2)]
    constructor <;> linarith
  · rw [abs_of_pos (by linarith : (0 : ℝ) < Real.pi / 2)]
    constructor <;> linarith
  · exact ⟨Real.neg_pi_div_two_le_arcsin _, Real.arcsin_le_pi_div_two _⟩

/- Wrap-loop lemmas, by functional induction on the source loops. -/

lemma wrapDown_of_le {a : ℝ} (h : a ≤ 180) : wrapDown a = a := by
  rw [wrapDown]
  exact dif_neg (not_lt.mpr h)

lemma wrapDown_le (a : ℝ) : wrapDown a ≤ 180 := by
  induction a using wrapDown.induct with
  | case1 a h ih =>
    rw [wrapDown, dif_pos h]
    exact ih
  | case2 a h =>
    rw [wrapDown, dif_neg h]
    exact not_lt.mp h

lemma wrapDown_ge (a : ℝ) : -180 ≤ a → -180 ≤ wrapDown a := by
  induction a using wrapDown.induct with
  | case1 a h1 ih =>
    intro _h
    rw [wrapDown, dif_pos h1]
    exact ih (by linarith)
  | case2 a h1 =>
    intro h
    rw [wrapDown, dif_neg h1]
    exact h

lemma wrapDown_sub_int (a : ℝ) : ∃ k : ℤ, wrapDown a = a - 360 * k := by
  induction a using wrapDown.induct with
  | case1 a h1 ih =>
    obtain ⟨k, hk⟩ := ih
    refine ⟨k + 1, ?_⟩
    rw [wrapDown, dif_pos h1, hk]
    push_cast
    ring
  | case2 a h1 =>
    refine ⟨0, ?_⟩
    rw [wrapDown, dif_neg h1]
    push_cast
    ring

lemma wrapUp_of_ge {a : ℝ} (h : -180 ≤ a) : wrapUp a = a := by
  rw [wrapUp]
  exact dif_neg (not_lt.mpr h)

lemma wrapUp_ge (a : ℝ) : -180 ≤ wrapUp a := by
  induction a using wrapUp.induct with
  | case1 a h ih =>
    rw [wrapUp, dif_pos h]
    exact ih
  | case2 a h =>
    rw [wrapUp, dif_neg h]
    exact not_lt.mp h

lemma wrapUp_le (a : ℝ) : a ≤ 180 → wrapUp a ≤ 180 := by
  induction a using wrapUp.induct with
  | case1 a h1 ih =>
    intro _h
    rw [wrapUp, dif_pos h1]
    exact ih (by linarith)
  | case2 a h1 =>
    intro h
    rw [wrapUp, dif_neg h1]
    exact h

lemma wrapUp_add_int (a : ℝ) : ∃ k : ℤ, wrapUp a = a + 360 * k := by
  induction a using wrapUp.induct with
  | case1 a h1 ih =>
    obtain ⟨k, hk⟩ := ih
    refine ⟨k + 1, ?_⟩
    rw [wrapUp, dif_pos h1, hk]
    push_cast
    ring
  | case2 a h1 =>
    refine ⟨0, ?_⟩
    rw [wrapUp, dif_neg h1]
    push_cast
    ring

lemma wrapAngle_mem (a : ℝ) : -180 ≤ wrapAngle a ∧ wrapAngle a ≤ 180 :=
  ⟨wrapUp_ge _, wrapUp_le _ (wrapDown_le a)⟩

lemma wrapAngle_of_mem {a : ℝ} (h1 : -180 ≤ a) (h2 : a ≤ 180) : wrapAngle a = a := by
  unfold wrapAngle
  rw [wrapDown_of_le h2, wrapUp_of_ge h1]

lemma wrapAngle_idem (a : ℝ) : wrapAngle (wrapAngle a) = wrapAngle a :=
  wrapAngle_of_mem (wrapAngle_mem a).1 (wrapAngle_mem a).2

lemma wrapAngle_add_int (a : ℝ) : ∃ k : ℤ, wrapAngle a = a + 360 * k := by
  obtain ⟨k1, h1⟩ := wrapDown_sub_int a
  obtain ⟨k2, h2⟩ := wrapUp_add_int (wrapDown a)
  refine ⟨k2 - k1, ?_⟩
  rw [wrapAngle, h2, h1]
  push_cast
  ring

/-- Unrolling the resetView accumulation loop: the sums collect exactly the
decomposed angles of the successful fetches. -/
lemma foldl_resetViewStep (l : List (Option Quaternion)) (acc : ℝ × ℝ × ℝ) :
    l.foldl resetViewStep acc =
      (acc.1 + ((l.filterMap id).map (fun q => (eulerDecompose (quatNormalize q)).yaw)).sum,
       acc.2.1 + ((l.filterMap id).map (fun q => (eulerDecompose (quatNormalize q)).pitch)).sum,
       acc.2.2 + ((l.filterMap id).map (fun q => (eulerDecompose (quatNormalize q)).roll)).sum) := by
  induction l generalizing acc with
  | nil => simp
  | cons hd tl ih =>
    cases hd with
    | none =>
      simp only [List.foldl_cons, resetViewStep, List.filterMap_cons, id_eq]
      exact ih acc
    | some q =>
      simp only [List.foldl_cons, resetViewStep, List.filterMap_cons, id_eq,
        List.map_cons, List.sum_cons, ih]
      refine Prod.ext ?_ (Prod.ext ?_ ?_) <;> simp <;> ring

/-- resetView always divides the accumulated sums by the constant 10,
independently of how many fetches succeeded. -/
lemma resetView_eq (fetches : List (Option Quaternion)) :
    resetView fetches =
      ⟨(((fetches.take samples).filterMap id).map
          (fun q => (eulerDecompose (quatNormalize q)).yaw)).sum / 10,
       (((fetches.take samples).filterMap id).map
          (fun q => (eulerDecompose (quatNormalize q)).pitch)).sum / 10,
       (((fetches.take samples).filterMap id).map
          (fun q => (eulerDecompose (quatNormalize q)).roll)).sum / 10⟩ := by
  unfold resetView
  rw [foldl_resetViewStep]
  norm_num [samples]

/- Concrete evaluations used by the counterexamples and the degenerate case. -/

lemma atan2_zero_one : atan2 0 1 = 0 := by
  unfold atan2
  norm_num [Real.arctan_zero]

lemma atan2_zero_neg_one : atan2 0 (-1) = Real.pi := by
  unfold atan2
  norm_num [Real.arctan_zero]

lemma quatNormalize_zero : quatNormalize ⟨0, 0, 0, 0⟩ = ⟨0, 0, 0, 0⟩ := by
  unfold quatNormalize quatNorm
  norm_num

lemma eulerDecompose_zero : eulerDecompose ⟨0, 0, 0, 0⟩ = ⟨0, 0, 0⟩ := by
  unfold eulerDecompose eulerYawRad eulerPitchRad eulerRollRad
  norm_num [atan2_zero_one, Real.arcsin_zero, radToDeg_zero]

lemma quatNormalize_juni : quatNormalize ⟨0, 0, 1, 0⟩ = ⟨0, 0, 1, 0⟩ := by
  unfold quatNormalize quatNorm
  norm_num

lemma eulerDecompose_juni : eulerDecompose ⟨0, 0, 1, 0⟩ = ⟨180, 0, 180⟩ := by
  unfold eulerDecompose eulerYawRad eulerPitchRad eulerRollRad
  norm_num [atan2_zero_neg_one, Real.arcsin_zero, radToDeg_zero, radToDeg_pi]

lemma mapFloat_zero_axis : mapFloat 0 (-180) 180 (-127) 127 = 0 := by
  unfold mapFloat
  norm_num

/-- Enough fuel makes the step-indexed subtract-360 loop reach the value of
the unbounded loop. -/
lemma wrapDownFuel_complete (a : ℝ) : ∃ n, wrapDownFuel n a = some (wrapDown a) := by
  induction a using wrapDown.induct with
  | case1 a h ih =>
    obtain ⟨n, hn⟩ := ih
    refine ⟨n + 1, ?_⟩
    have hw : wrapDown a = wrapDown (a - 360) := by
      rw [wrapDown, dif_pos h]
    rw [hw]
    simp only [wrapDownFuel]
    rw [if_pos h, hn]
  | case2 a h =>
    refine ⟨0, ?_⟩
    simp only [wrapDownFuel]
    rw [if_neg h, wrapDown, dif_neg h]

/-- Enough fuel makes the step-indexed add-360 loop reach the value of the
unbounded loop. -/
lemma wrapUpFuel_complete (a : ℝ) : ∃ n, wrapUpFuel n a = some (wrapUp a) := by
  induction a using wrapUp.induct with
  | case1 a h ih =>
    obtain ⟨n, hn⟩ := ih
    refine ⟨n + 1, ?_⟩
    have hw : wrapUp a = wrapUp (a + 360) := by
      rw [wrapUp, dif_pos h]
    rw [hw]
    simp only [wrapUpFuel]
    rw [if_pos h, hn]
  | case2 a h =>
    refine ⟨0, ?_⟩
    simp only [wrapUpFuel]
    rw [if_neg h, wrapUp, dif_neg h]

/-- Decomposed pitch, in degrees, is within [-90, 90] for every input. -/
lemma eulerDecompose_pitch_mem (q : Quaternion) :
    -90 ≤ (eulerDecompose q).pitch ∧ (eulerDecompose q).pitch ≤ 90 := by
  obtain ⟨h1, h2⟩ := eulerPitchRad_mem q
  constructor
  · have h3 := radToDeg_mono h1
    rw [radToDeg_neg, radToDeg_pi_div_two] at h3
    exact h3
  · have h3 := radToDeg_mono h2
    rw [radToDeg_pi_div_two] at h3
    exact h3

/-- Decomposed yaw, in degrees, is within (-180, 180] for every input. -/
lemma eulerDecompose_yaw_mem (q : Quaternion) :
    -180 < (eulerDecompose q).yaw ∧ (eulerDecompose q).yaw ≤ 180 := by
  obtain ⟨h1, h2⟩ :=
    atan2_mem_Ioc (2 * (q.w * q.z + q.x * q.y)) (1 - 2 * (q.y * q.y + q.z * q.z))
  constructor
  · have h3 := radToDeg_lt_of_lt h1
    rw [radToDeg_neg, radToDeg_pi] at h3
    exact h3
  · have h3 := radToDeg_mono h2
    rw [radToDeg_pi] at h3
    exact h3

/-- Decomposed roll, in degrees, is within (-180, 180] for every input. -/
lemma eulerDecompose_roll_mem (q : Quaternion) :
    -180 < (eulerDecompose q).roll ∧ (eulerDecompose q).roll ≤ 180 := by
  obtain ⟨h1, h2⟩ :=
    atan2_mem_Ioc (2 * (q.w * q.x + q.y * q.z)) (1 - 2 * (q.x * q.x + q.y * q.y))
  constructor
  · have h3 := radToDeg_lt_of_lt h1
    rw [radToDeg_neg, radToDeg_pi] at h3
    exact h3
  · have h3 := radToDeg_mono h2
    rw [radToDeg_pi] at h3
    exact h3

/- Claim theorems -/

/-- C1: the source does not guard degenerate quaternion input. At the raw
input (0,0,0,0) the normalizer divides by the zero norm and returns a
non-unit quaternion (norm 0, not 1; in C float arithmetic the components
would be NaN), and the per-sample pipeline still produces an axis sample
for the cycle instead of failing with DegenerateInput and skipping it. -/
theorem degenerate_input_not_guarded :
    quatNormalize ⟨0, 0, 0, 0⟩ = ⟨0, 0, 0, 0⟩ ∧
    quatNorm (quatNormalize ⟨0, 0, 0, 0⟩) = 0 ∧
    processSample ⟨0, 0, 0, 0⟩ ⟨0, 0, 0⟩ = ⟨0, 0, 0⟩ := by
  have hnorm : quatNorm (⟨0, 0, 0, 0⟩ : Quaternion) = 0 := by
    unfold quatNorm
    norm_num
  refine ⟨quatNormalize_zero, ?_, ?_⟩
  · rw [quatNormalize_zero]
    exact hnorm
  · have h0 : angleNormalize (0 : ℝ) 0 = 0 := by
      unfold angleNormalize
      rw [show (0 : ℝ) - 0 = 0 by ring]
      exact wrapAngle_of_mem (by norm_num) (by norm_num)
    simp only [processSample, quatNormalize_zero, eulerDecompose_zero, h0, mapFloat_zero_axis]

/-- C2 (counterexample): with one successful fetch (the unit quaternion
(0,0,1,0), whose decomposed yaw is 180 degrees) followed by nine failed
fetches, resetView installs yaw offset 180 / 10 = 18, while the claimed
success-counting average would install 180 / 1 = 180. -/
theorem resetView_divisor_counterexample :
    (resetView (some ⟨0, 0, 1, 0⟩ ::
        [none, none, none, none, none, none, none, none, none])).yaw = 18 ∧
    (resetViewClaimed (some ⟨0, 0, 1, 0⟩ ::
        [none, none, none, none, none, none, none, none, none])).yaw = 180 ∧
    resetView (some ⟨0, 0, 1, 0⟩ ::
        [none, none, none, none, none, none, none, none, none]) ≠
      resetViewClaimed (some ⟨0, 0, 1, 0⟩ ::
        [none, none, none, none, none, none, none, none, none]) := by
  have htake : (some (⟨0, 0, 1, 0⟩ : Quaternion) ::
      [none, none, none, none, none, none, none, none, none]).take samples =
      some (⟨0, 0, 1, 0⟩ : Quaternion) ::
      [none, none, none, none, none, none, none, none, none] :=
    List.take_of_length_le (by simp [samples])
  have hyaw : (resetView (some ⟨0, 0, 1, 0⟩ ::
      [none, none, none, none, none, none, none, none, none])).yaw = 18 := by
    rw [resetView_eq, htake]
    simp only [List.filterMap_cons, id_eq, List.filterMap_nil, List.map_cons, List.map_nil,
      List.sum_cons, List.sum_nil, quatNormalize_juni, eulerDecompose_juni]
    norm_num
  have hyaw2 : (resetViewClaimed (some ⟨0, 0, 1, 0⟩ ::
      [none, none, none, none, none, none, none, none, none])).yaw = 180 := by
    unfold resetViewClaimed
    rw [htake]
    simp only [List.filterMap_cons, id_eq, List.filterMap_nil, List.map_cons, List.map_nil,
      List.foldl_cons, List.foldl_nil, resetViewStep, quatNormalize_juni, eulerDecompose_juni,
      List.length_cons, List.length_nil]
    norm_num
  refine ⟨hyaw, hyaw2, fun hcontra => ?_⟩
  have h3 := congrArg CalibrationOffset.yaw hcontra
  rw [hyaw, hyaw2] at h3
  norm_num at h3

/-- C2 (amended): resetView accumulates the decomposed yaw/pitch/roll of
exactly the successfully fetched samples among its ten fetch attempts, but
always divides the sums by the fixed sample count 10, regardless of how
many fetches succeeded. -/
theorem resetView_fixed_divisor (fetches : List (Option Quaternion)) :
    resetView fetches =
      ⟨(((fetches.take samples).filterMap id).map
          (fun q => (eulerDecompose (quatNormalize q)).yaw)).sum / 10,
       (((fetches.take samples).filterMap id).map
          (fun q => (eulerDecompose (quatNormalize q)).pitch)).sum / 10,
       (((fetches.take samples).filterMap id).map
          (fun q => (eulerDecompose (quatNormalize q)).roll)).sum / 10⟩ :=
  resetView_eq fetches

/-- C3 (counterexample): the wrapped result can be exactly -180: with raw
angle 0 and calibration offset 180 the angle normalizer returns -180, so the
output is not confined to the half-open interval (-180, 180]. -/
theorem angle_wrap_hits_neg180 : angleNormalize 0 180 = -180 := by
  unfold angleNormalize
  rw [show (0 : ℝ) - 180 = -180 by ring]
  exact wrapAngle_of_mem (by norm_num) (by norm_num)

/-- C3 (amended): the angle normalizer returns (raw - offset) shifted by an
integer multiple of 360 into the closed interval [-180, 180]; a value of
exactly +180 stays +180 and a value of exactly -180 stays -180. -/
theorem angle_normalizer_range :
    (∀ raw offset : ℝ,
      (-180 ≤ angleNormalize raw offset ∧ angleNormalize raw offset ≤ 180) ∧
      ∃ k : ℤ, angleNormalize raw offset = raw - offset + 360 * k) ∧
    angleNormalize 180 0 = 180 ∧ angleNormalize (-180) 0 = -180 := by
  refine ⟨fun raw offset => ⟨⟨(wrapAngle_mem _).1, (wrapAngle_mem _).2⟩, ?_⟩, ?_, ?_⟩
  · obtain ⟨k, hk⟩ := wrapAngle_add_int (raw - offset)
    exact ⟨k, hk⟩
  · unfold angleNormalize
    rw [show (180 : ℝ) - 0 = 180 by ring]
    exact wrapAngle_of_mem (by norm_num) (by norm_num)
  · unfold angleNormalize
    rw [show (-180 : ℝ) - 0 = -180 by ring]
    exact wrapAngle_of_mem (by norm_num) (by norm_num)

/-- C4 (counterexample): the angle normalizer is not idempotent as claimed:
with offset 90, normalizing the angle 0 gives -90, and normalizing -90 again
with the same offset 90 gives -180, not -90. -/
theorem angle_normalize_not_idempotent :
    angleNormalize (angleNormalize 0 90) 90 ≠ angleNormalize 0 90 := by
  have h1 : angleNormalize (0 : ℝ) 90 = -90 := by
    unfold angleNormalize
    rw [show (0 : ℝ) - 90 = -90 by ring]
    exact wrapAngle_of_mem (by norm_num) (by norm_num)
  have h2 : angleNormalize (-90 : ℝ) 90 = -180 := by
    unfold angleNormalize
    rw [show (-90 : ℝ) - 90 = -180 by ring]
    exact wrapAngle_of_mem (by norm_num) (by norm_num)
  rw [h1, h2]
  norm_num

/-- C4 (amended): re-applying only the wrap step (the angle normalizer with
zero offset) to an already-normalized angle returns the identical value; the
second subtraction of a nonzero offset is what breaks idempotence. -/
theorem angle_normalize_rewrap_identity (raw offset : ℝ) :
    angleNormalize (angleNormalize raw offset) 0 = angleNormalize raw offset := by
  unfold angleNormalize
  rw [sub_zero]
  exact wrapAngle_idem _

/-- C5: the Euler decomposer computes s = 2(wy - zx) and clamps pitch to
exactly +-90 degrees with the sign of s (copy-sign semantics) when
abs s >= 1, and returns asin s converted to degrees otherwise; the
gimbal-lock case is an ordinary branch, not a failure. -/
theorem euler_pitch_clamp (w x y z : ℝ) :
    (eulerDecompose ⟨w, x, y, z⟩).pitch =
      if 1 ≤ |2 * (w * y - z * x)| then
        (if 2 * (w * y - z * x) < 0 then -90 else 90)
      else radToDeg (Real.arcsin (2 * (w * y - z * x))) := by
  show radToDeg (eulerPitchRad ⟨w, x, y, z⟩) = _
  simp only [eulerPitchRad, copysign]
  split_ifs with h1 h2
  · rw [abs_of_pos (by positivity : (0 : ℝ) < Real.pi / 2), radToDeg_neg, radToDeg_pi_div_two]
  · rw [abs_of_pos (by positivity : (0 : ℝ) < Real.pi / 2), radToDeg_pi_div_two]
  · rfl

/-- C6: the Euler decomposer computes
roll = atan2(2(wx + yz), 1 - 2(x^2 + y^2)) and
yaw = atan2(2(wz + xy), 1 - 2(y^2 + z^2)), and all three angles are
converted from radians to degrees by multiplication with 180 / pi. -/
theorem euler_roll_yaw_formulas (w x y z : ℝ) :
    (eulerDecompose ⟨w, x, y, z⟩).roll
        = atan2 (2 * (w * x + y * z)) (1 - 2 * (x ^ 2 + y ^ 2)) * (180 / Real.pi) ∧
    (eulerDecompose ⟨w, x, y, z⟩).yaw
        = atan2 (2 * (w * z + x * y)) (1 - 2 * (y ^ 2 + z ^ 2)) * (180 / Real.pi) ∧
    (eulerDecompose ⟨w, x, y, z⟩).pitch
        = eulerPitchRad ⟨w, x, y, z⟩ * (180 / Real.pi) := by
  refine ⟨?_, ?_, rfl⟩
  · show radToDeg (eulerRollRad ⟨w, x, y, z⟩) = _
    simp only [eulerRollRad, radToDeg, pow_two]
  · show radToDeg (eulerYawRad ⟨w, x, y, z⟩) = _
    simp only [eulerYawRad, radToDeg, pow_two]

/-- C7: the range mapper is the pure linear interpolation of the source;
on the fixed domain [-180, 180] and range [-127, 127] it maps -180 to the
lower bound -127, maps 0 to the midpoint of [-127, 127], and its values
tend to the upper bound 127 as the input tends to 180 from below. -/
theorem range_mapper_linear :
    mapFloat (-180) (-180) 180 (-127) 127 = -127 ∧
    mapFloat 0 (-180) 180 (-127) 127 = ((-127 : ℝ) + 127) / 2 ∧
    Filter.Tendsto (fun a => mapFloat a (-180) 180 (-127) 127)
      (nhdsWithin 180 (Set.Iio 180)) (nhds 127) := by
  refine ⟨by norm_num [mapFloat], by norm_num [mapFloat], ?_⟩
  have hc : Continuous fun a : ℝ => mapFloat a (-180) 180 (-127) 127 := by
    unfold mapFloat
    fun_prop
  have h180 : mapFloat 180 (-180) 180 (-127) 127 = 127 := by norm_num [mapFloat]
  have ht := hc.tendsto 180
  rw [h180] at ht
  exact ht.mono_left nhdsWithin_le_nhds

/-- C8: for every unit quaternion, normalizing and decomposing yields pitch
in [-90, 90] degrees and yaw and roll in (-180, 180] degrees (all values
are real numbers, hence finite). -/
theorem decompose_normalize_bounds (w x y z : ℝ)
    (_h : w * w + x * x + y * y + z * z = 1) :
    (-90 ≤ (eulerDecompose (quatNormalize ⟨w, x, y, z⟩)).pitch ∧
      (eulerDecompose (quatNormalize ⟨w, x, y, z⟩)).pitch ≤ 90) ∧
    (-180 < (eulerDecompose (quatNormalize ⟨w, x, y, z⟩)).yaw ∧
      (eulerDecompose (quatNormalize ⟨w, x, y, z⟩)).yaw ≤ 180) ∧
    (-180 < (eulerDecompose (quatNormalize ⟨w, x, y, z⟩)).roll ∧
      (eulerDecompose (quatNormalize ⟨w, x, y, z⟩)).roll ≤ 180) :=
  ⟨eulerDecompose_pitch_mem _, eulerDecompose_yaw_mem _, eulerDecompose_roll_mem _⟩

/-- C8 witness: the identity quaternion satisfies the unit hypothesis and
the decomposition bounds. -/
theorem decompose_normalize_bounds_witness :
    ((1 : ℝ) * 1 + 0 * 0 + 0 * 0 + 0 * 0 = 1) ∧
    ((-90 ≤ (eulerDecompose (quatNormalize ⟨1, 0, 0, 0⟩)).pitch ∧
      (eulerDecompose (quatNormalize ⟨1, 0, 0, 0⟩)).pitch ≤ 90) ∧
    (-180 < (eulerDecompose (quatNormalize ⟨1, 0, 0, 0⟩)).yaw ∧
      (eulerDecompose (quatNormalize ⟨1, 0, 0, 0⟩)).yaw ≤ 180) ∧
    (-180 < (eulerDecompose (quatNormalize ⟨1, 0, 0, 0⟩)).roll ∧
      (eulerDecompose (quatNormalize ⟨1, 0, 0, 0⟩)).roll ≤ 180)) :=
  ⟨by norm_num, decompose_normalize_bounds 1 0 0 0 (by norm_num)⟩

/-- C9: when every one of the ten fetch attempts fails, resetView still
completes and installs the offset triple (0, 0, 0) --- the zero-initialized
sums divided by the fixed count --- discarding whatever offset was
previously installed. -/
theorem resetView_all_failures (prev : CalibrationOffset)
    (fetches : List (Option Quaternion)) (h : ∀ f ∈ fetches, f = none) :
    resetViewUpdate prev fetches = ⟨0, 0, 0⟩ := by
  unfold resetViewUpdate
  rw [resetView_eq]
  have hf : (fetches.take samples).filterMap id = [] :=
    List.filterMap_eq_nil_iff.mpr fun a ha => h a (List.mem_of_mem_take ha)
  rw [hf]
  norm_num

/-- C9 witness: ten failed fetches, starting from a nonzero previous
offset, produce the zero offset. -/
theorem resetView_all_failures_witness :
    (∀ f ∈ List.replicate 10 (none : Option Quaternion), f = none) ∧
    resetViewUpdate ⟨5, 6, 7⟩ (List.replicate 10 (none : Option Quaternion)) = ⟨0, 0, 0⟩ :=
  ⟨fun _f hf => List.eq_of_mem_replicate hf,
   resetView_all_failures ⟨5, 6, 7⟩ _ fun _f hf => List.eq_of_mem_replicate hf⟩

/-- C10: for every input angle and offset, both wrap loops of the
angle-normalization step terminate: some finite fuel makes the step-indexed
loops return exactly the values of the unbounded loops, so the per-sample
normalization is a total function. -/
theorem angle_normalize_terminates (raw offset : ℝ) :
    ∃ n m : ℕ,
      wrapDownFuel n (raw - offset) = some (wrapDown (raw - offset)) ∧
      wrapUpFuel m (wrapDown (raw - offset)) = some (angleNormalize raw offset) := by
  obtain ⟨n, hn⟩ := wrapDownFuel_complete (raw - offset)
  obtain ⟨m, hm⟩ := wrapUpFuel_complete (wrapDown (raw - offset))
  exact ⟨n, m, hn, hm⟩

end HeadTracker
